import Mathlib

/-!
Verification of the package-graph model and want-closure resolver of
`pkglint.py` (shallow embedding).

The embedding mirrors the source:
* `Package.__strip_versions` (`re.sub(r'[<>=]{1,2}.+$', '', item)`) becomes
  `strip_version`.  Section items never contain a newline (they are produced
  by splitting on newlines), so the regex semantics on such strings are:
  delete from the leftmost comparator character that is followed by at least
  one further character, through the end of the string.  (The `{1,2}`
  quantifier is greedy, but when a two-character comparator sits at the very
  end the engine backtracks to one character and lets `.+` consume the
  second comparator character; only a single comparator character with
  nothing after it fails to match, because `.+` needs one character.)
* `Packages.__by_name` / `__by_provides` are Python 3.7+ dicts, i.e. ordered
  association lists; they become `List (String × _)` with first-match lookup
  and append-on-new-key insertion.
* the mutable per-object `wanted : bool` flag becomes an explicit state,
  the list of names marked wanted so far (names are unique keys of
  `by_name`, and every object the resolver touches is a `by_name` value).
* Python exceptions become an `Except` outcome; because the original code
  mutates objects before it can raise, every function returns the state
  reached so far together with the outcome, so partial marking is visible.
* the unbounded recursion of `mark_wanted_by_name` /
  `__mark_wanted_by_provided` becomes structural recursion on a fuel
  parameter; `runFuel` computes a bound proved sufficient below, and `run`
  is the resolver at that fuel.
-/

deriving instance DecidableEq for Except

namespace Pkglint

/-- A comparator character of the version-constraint regex `[<>=]{1,2}.+$`. -/
def isComparator (c : Char) : Bool :=
  c = '<' || c = '>' || c = '='

/-- Embeds `re.sub(r'[<>=]{1,2}.+$', '', item)` on a newline-free string, on the
character list: drop everything from the first comparator character that is
followed by at least one more character; a lone trailing comparator character
is kept because `.+` requires a character after the comparator. -/
def stripChars : List Char → List Char
  | [] => []
  | [c] => [c]
  | c :: c2 :: rest =>
    if isComparator c then [] else c :: stripChars (c2 :: rest)

/-- Source `Package.__strip_versions` applied to one item. -/
def strip_version (item : String) : String :=
  ⟨stripChars item.data⟩

/-- Source `Package.__strip_versions`. -/
def strip_versions (items : List String) : List String :=
  items.map strip_version

/-- The structured record one `desc` file parses to (the record parser is an
external collaborator; this is its output interface: `%NAME%`, `%VERSION%`,
`%DESC%`, `%DEPENDS%`, `%PROVIDES%` sections). -/
structure PackageRecord where
  name : String
  version : String
  desc : String
  depends_raw : List String
  provides_raw : List String
  deriving DecidableEq, Repr

/-- The `Package` entity (source lines 23–105); the mutable `__wanted` flag
is modelled as external state, and the display-only `__desc_file_path` is
omitted. -/
structure Package where
  name : String
  version : String
  desc : String
  depends : List String
  provides : List String
  deriving DecidableEq, Repr

/-- Source `Package.__init__` from a parsed record: stores the identity fields and
the version-stripped `depends` and `provides` lists (source lines 38–49). -/
def Package.ofRecord (r : PackageRecord) : Package :=
  { name := r.name
    version := r.version
    desc := r.desc
    depends := strip_versions r.depends_raw
    provides := strip_versions r.provides_raw }

/-- The raised error conditions: `DuplicateName` is the source's
`DuplicationError.package`, `UnresolvedDependency` the `LookupError` of
`mark_wanted_by_name` (spec section 7 names).  `outOfFuel` is an artifact of
the fuel-bounded embedding and is proved unreachable at `runFuel`. -/
inductive PkgError where
  | duplicateName (name : String)
  | unresolvedDependency (dep : String) (requiredBy : String)
  | outOfFuel
  deriving DecidableEq, Repr

/-- The message of `LookupError` raised at source line 139. -/
def PkgError.message : PkgError → String
  | .duplicateName n => "Package name " ++ n ++ " duplicated"
  | .unresolvedDependency dep req =>
      dep ++ " required by " ++ req ++ " is not installed, nor provided"
  | .outOfFuel => "out of fuel"

/-- The `Packages` graph: `__by_name` and `__by_provides` as ordered
association lists (Python dicts preserve insertion order). -/
structure Packages where
  by_name : List (String × Package)
  by_provides : List (String × List Package)
  deriving DecidableEq, Repr

/-- First-match association lookup, `dict.__getitem__` / `in`. -/
def findPkg : List (String × Package) → String → Option Package
  | [], _ => none
  | (k, p) :: rest, n => if k = n then some p else findPkg rest n

/-- First-match association lookup in `__by_provides`. -/
def findProv : List (String × List Package) → String → Option (List Package)
  | [], _ => none
  | (k, l) :: rest, n => if k = n then some l else findProv rest n

/-- One iteration of the loop in `Packages.add` (source lines 122–126):
`if provided not in by_provides: by_provides[provided] = []` followed by
`by_provides[provided].append(package)` — append to the existing entry in
place, or append a fresh entry at the end. -/
def updateProv : List (String × List Package) → String → Package →
    List (String × List Package)
  | [], v, p => [(v, [p])]
  | (k, l) :: rest, v, p =>
    if k = v then (k, l ++ [p]) :: rest else (k, l) :: updateProv rest v p

/-- Source `Packages.__init__`. -/
def Packages.empty : Packages :=
  { by_name := [], by_provides := [] }

/-- Source `Packages.add` (lines 116–126): raise `DuplicateName` when the
name is already a key of `by_name`, otherwise insert into `by_name` and
register every provided alias.  The duplicate check precedes every mutation,
so an error leaves the graph unchanged (no graph is produced). -/
def Packages.add (g : Packages) (package : Package) : Except PkgError Packages :=
  match findPkg g.by_name package.name with
  | some _ => .error (.duplicateName package.name)
  | none =>
    .ok { by_name := g.by_name ++ [(package.name, package)]
          by_provides :=
            package.provides.foldl (fun bp provided => updateProv bp provided package)
              g.by_provides }

/-- The graph a caller holds after `add`: the new graph on success, the old
one when the duplicate-name exception was raised (the exception propagates
before any mutation). -/
def Packages.addOrKeep (g : Packages) (package : Package) : Packages :=
  match g.add package with
  | .ok g2 => g2
  | .error _ => g

/-- The wanted-state: the names of the packages whose `__wanted` flag has
been set (newest first). -/
abbrev WantedState := List String

mutual

/-- Source `Packages.mark_wanted_by_name` (lines 128–141), fuel-bounded.
Returns the boolean result (or the propagating exception) together with the
wanted-state reached, since the source mutates flags before it can raise. -/
def mark_wanted_by_name (g : Packages) :
    Nat → WantedState → String → Except PkgError Bool × WantedState
  | 0, s, _ => (.error .outOfFuel, s)
  | fuel + 1, s, package_name =>
    match findPkg g.by_name package_name with
    | none => (.ok false, s)
    | some package =>
      if package_name ∈ s then (.ok true, s)
      else
        let r := mark_deps g fuel (package_name :: s) package package.depends
        (r.1.map (fun _ => true), r.2)

/-- The dependency loop of `mark_wanted_by_name` (source lines 137–139):
for each dependency name, try direct resolution, then provided-alias
resolution, and raise `UnresolvedDependency` when both fail. -/
def mark_deps (g : Packages) :
    Nat → WantedState → Package → List String → Except PkgError Unit × WantedState
  | 0, s, _, _ => (.error .outOfFuel, s)
  | _ + 1, s, _, [] => (.ok (), s)
  | fuel + 1, s, package, dep_name :: rest =>
    let r := mark_wanted_by_name g fuel s dep_name
    match r.1 with
    | .error e => (.error e, r.2)
    | .ok true => mark_deps g fuel r.2 package rest
    | .ok false =>
      let r2 := mark_wanted_by_provided g fuel r.2 dep_name
      match r2.1 with
      | .error e => (.error e, r2.2)
      | .ok true => mark_deps g fuel r2.2 package rest
      | .ok false =>
        (.error (.unresolvedDependency dep_name package.name), r2.2)

/-- Source `Packages.__mark_wanted_by_provided` (lines 143–150): false when
the name is not a `by_provides` key; otherwise mark every provider's closure
and return true (true even for an empty provider list, which `add` never
creates). -/
def mark_wanted_by_provided (g : Packages) :
    Nat → WantedState → String → Except PkgError Bool × WantedState
  | 0, s, _ => (.error .outOfFuel, s)
  | fuel + 1, s, provided_name =>
    match findProv g.by_provides provided_name with
    | none => (.ok false, s)
    | some packages =>
      let r := mark_providers g fuel s packages
      (r.1.map (fun _ => true), r.2)

/-- The provider loop of `__mark_wanted_by_provided` (source lines
147–148): mark each provider by its own name, discarding the boolean. -/
def mark_providers (g : Packages) :
    Nat → WantedState → List Package → Except PkgError Unit × WantedState
  | 0, s, _ => (.error .outOfFuel, s)
  | _ + 1, s, [] => (.ok (), s)
  | fuel + 1, s, package :: rest =>
    let r := mark_wanted_by_name g fuel s package.name
    match r.1 with
    | .error e => (.error e, r.2)
    | .ok _ => mark_providers g fuel r.2 rest

end

/-- Largest `depends` length over the graph's packages (fuel accounting). -/
def maxDepsLen (g : Packages) : Nat :=
  g.by_name.foldl (fun m e => max m e.2.depends.length) 0

/-- Largest provider-list length over `by_provides` (fuel accounting). -/
def maxProvLen (g : Packages) : Nat :=
  g.by_provides.foldl (fun m e => max m e.2.length) 0

/-- A fuel amount proved below to be sufficient for any call on `g`, so
that `run` is the source's unbounded recursion. -/
def runFuel (g : Packages) : Nat :=
  (maxDepsLen g + maxProvLen g + 3) * (g.by_name.length + 1)

/-- One call of `Packages.mark_wanted_by_name`, at sufficient fuel. -/
def run (g : Packages) (s : WantedState) (package_name : String) :
    Except PkgError Bool × WantedState :=
  mark_wanted_by_name g (runFuel g) s package_name

/-- Source `Packages.get_unwanted` (lines 152–153): the `by_name` values,
in insertion order, whose `wanted` flag is still unset. -/
def get_unwanted (g : Packages) (s : WantedState) : List Package :=
  (g.by_name.map Prod.snd).filter (fun package => decide (package.name ∉ s))

/-- The `wanted` flag of a package under wanted-state `s`. -/
def wantedIn (s : WantedState) (package : Package) : Prop :=
  package.name ∈ s

instance (s : WantedState) (package : Package) : Decidable (wantedIn s package) :=
  inferInstanceAs (Decidable (package.name ∈ s))

/-- The operations a caller can perform on a graph (spec section 4.2 plus
`Package.mark_wanted`). -/
inductive Op where
  | add (package : Package)
  | markByName (name : String)
  | getUnwanted
  | markWanted (name : String)
  deriving DecidableEq, Repr

/-- Effect of one operation on the caller-visible state (graph plus wanted
flags): `add` keeps the old graph when it raises; `markByName` keeps
whatever marking happened even when the call raised (Python mutates objects
in place before an exception propagates); `get_unwanted` is a pure query;
`markWanted` is `Package.mark_wanted` on the named package's flag. -/
def step : Packages × WantedState → Op → Packages × WantedState
  | (g, s), .add package => (g.addOrKeep package, s)
  | (g, s), .markByName name => (g, (run g s name).2)
  | (g, s), .getUnwanted => (g, s)
  | (g, s), .markWanted name => (g, name :: s)

/-- A sequence of operations. -/
def runOps (st : Packages × WantedState) (ops : List Op) : Packages × WantedState :=
  ops.foldl step st

/-- Number of `by_name` entries not yet marked wanted (the termination
measure of the resolver). -/
def unwantedCount : List (String × Package) → WantedState → Nat
  | [], _ => 0
  | e :: rest, s => (if e.1 ∈ s then 0 else 1) + unwantedCount rest s

/-- The invariant `Packages.add` maintains and the resolver relies on:
every `by_name` entry is keyed by its package's name, every provided alias
of a held package has a `by_provides` entry listing that package, and
`by_provides` keys are unique. -/
def WellFormed (g : Packages) : Prop :=
  (∀ e ∈ g.by_name, e.1 = e.2.name) ∧
  (∀ e ∈ g.by_name, ∀ v ∈ e.2.provides, ∃ pe ∈ g.by_provides, pe.1 = v ∧ e.2 ∈ pe.2) ∧
  (g.by_provides.map Prod.fst).Nodup

instance (g : Packages) : Decidable (WellFormed g) := by
  unfold WellFormed
  infer_instance

/-- Modelled from the claim's wording (spec section 4.1): "truncate at the
first occurrence of one of the comparator tokens (`<`, `>`, `=`, or any 1–2
character combination of these) through end of string" — i.e. cut at the
first comparator character unconditionally. -/
def truncateAtFirstComparator : List Char → List Char
  | [] => []
  | c :: rest => if isComparator c then [] else c :: truncateAtFirstComparator rest

/-- The claimed stripping rule on a string. -/
def claimStrip (item : String) : String :=
  ⟨truncateAtFirstComparator item.data⟩

/-- The amended stripping rule, stated independently of `stripChars`:
truncate at the first comparator character that has at least one character
after it (i.e. the first comparator position within `dropLast`); keep the
string when there is no such position. -/
def amendedStrip (item : String) : String :=
  if item.data.dropLast.any (fun c => isComparator c) then
    ⟨item.data.take (item.data.dropLast.findIdx (fun c => isComparator c))⟩
  else item

/-! ### Association-list and counting lemmas -/

theorem findPkg_mem {l : List (String × Package)} {n : String} {p : Package}
    (h : findPkg l n = some p) : (n, p) ∈ l := by
  induction l with
  | nil => simp [findPkg] at h
  | cons e rest ih =>
    obtain ⟨k, q⟩ := e
    by_cases hk : k = n
    · subst hk
      simp [findPkg] at h
      subst h
      exact List.mem_cons_self _ _
    · simp only [findPkg, if_neg hk] at h
      exact List.mem_cons_of_mem _ (ih h)

theorem findPkg_isSome_of_mem {l : List (String × Package)} {k : String} {p : Package}
    (h : (k, p) ∈ l) : findPkg l k ≠ none := by
  induction l with
  | nil => simp at h
  | cons e rest ih =>
    obtain ⟨k2, q⟩ := e
    by_cases hk : k2 = k
    · simp [findPkg, hk]
    · rcases List.mem_cons.mp h with h1 | h1
      · exact absurd (congrArg Prod.fst h1).symm hk
      · simpa [findPkg, hk] using ih h1

theorem findProv_eq_of_mem {l : List (String × List Package)} {v : String}
    {pl : List Package} (hnd : (l.map Prod.fst).Nodup) (h : (v, pl) ∈ l) :
    findProv l v = some pl := by
  induction l with
  | nil => simp at h
  | cons e rest ih =>
    obtain ⟨k, q⟩ := e
    simp only [List.map_cons, List.nodup_cons] at hnd
    rcases List.mem_cons.mp h with h1 | h1
    · injection h1 with hv hq
      subst hv
      subst hq
      simp [findProv]
    · have hk : k ≠ v := by
        intro hkv
        subst hkv
        exact hnd.1 (List.mem_map.mpr ⟨(k, pl), h1, rfl⟩)
      simp only [findProv, if_neg hk]
      exact ih hnd.2 h1

theorem unwantedCount_le_length (l : List (String × Package)) (s : WantedState) :
    unwantedCount l s ≤ l.length := by
  induction l with
  | nil => simp [unwantedCount]
  | cons e rest ih =>
    simp only [unwantedCount, List.length_cons]
    split <;> omega

theorem unwantedCount_subset {s s2 : WantedState} (h : s ⊆ s2)
    (l : List (String × Package)) : unwantedCount l s2 ≤ unwantedCount l s := by
  induction l with
  | nil => simp [unwantedCount]
  | cons e rest ih =>
    simp only [unwantedCount]
    by_cases h1 : e.1 ∈ s
    · have h2 : e.1 ∈ s2 := h h1
      simp [h1, h2, ih]
    · split <;> omega

theorem unwantedCount_cons_lt {l : List (String × Package)} {n : String} {p : Package}
    {s : WantedState} (hmem : (n, p) ∈ l) (hns : n ∉ s) :
    unwantedCount l (n :: s) < unwantedCount l s := by
  induction l with
  | nil => simp at hmem
  | cons e rest ih =>
    simp only [unwantedCount]
    rcases List.mem_cons.mp hmem with h1 | h1
    · have he : e.1 = n := (congrArg Prod.fst h1.symm)
      have h2 : unwantedCount rest (n :: s) ≤ unwantedCount rest s :=
        unwantedCount_subset (List.subset_cons_self _ _) rest
      rw [he]
      simp [hns, List.mem_cons]
      omega
    · have h2 := ih h1
      by_cases h3 : e.1 ∈ s
      · have h4 : e.1 ∈ n :: s := List.mem_cons_of_mem _ h3
        simp [h3, h4]
        omega
      · split <;> omega

theorem foldl_max_init {α : Type} (f : α → Nat) (l : List α) :
    ∀ a : Nat, a ≤ l.foldl (fun m y => max m (f y)) a := by
  induction l with
  | nil => simp
  | cons x xs ih =>
    intro a
    calc a ≤ max a (f x) := le_max_left _ _
    _ ≤ xs.foldl (fun m y => max m (f y)) (max a (f x)) := ih _

theorem mem_le_foldl_max {α : Type} (f : α → Nat) {l : List α} {x : α} (h : x ∈ l) :
    ∀ a : Nat, f x ≤ l.foldl (fun m y => max m (f y)) a := by
  induction l with
  | nil => simp at h
  | cons y ys ih =>
    intro a
    rcases List.mem_cons.mp h with h1 | h1
    · subst h1
      calc f x ≤ max a (f x) := le_max_right _ _
      _ ≤ ys.foldl (fun m y => max m (f y)) (max a (f x)) := foldl_max_init _ _ _
    · exact ih h1 _

theorem depends_le_maxDepsLen {g : Packages} {e : String × Package}
    (h : e ∈ g.by_name) : e.2.depends.length ≤ maxDepsLen g :=
  mem_le_foldl_max (fun e => e.2.depends.length) h 0

theorem providers_le_maxProvLen {g : Packages} {e : String × List Package}
    (h : e ∈ g.by_provides) : e.2.length ≤ maxProvLen g :=
  mem_le_foldl_max (fun e => e.2.length) h 0

/-! ### State monotonicity: the resolver only ever adds wanted marks -/

theorem mono_all (g : Packages) : ∀ fuel : Nat,
    (∀ s n, s <:+ (mark_wanted_by_name g fuel s n).2) ∧
    (∀ s p deps, s <:+ (mark_deps g fuel s p deps).2) ∧
    (∀ s v, s <:+ (mark_wanted_by_provided g fuel s v).2) ∧
    (∀ s l, s <:+ (mark_providers g fuel s l).2) := by
  intro fuel
  induction fuel with
  | zero =>
    refine ⟨fun s n => ?_, fun s p deps => ?_, fun s v => ?_, fun s l => ?_⟩ <;>
      exact List.suffix_refl s
  | succ fuel ih =>
    obtain ⟨ihA, ihB, ihC, ihD⟩ := ih
    refine ⟨fun s n => ?_, fun s p deps => ?_, fun s v => ?_, fun s l => ?_⟩
    · simp only [mark_wanted_by_name]
      split
      · exact List.suffix_refl s
      · split
        · exact List.suffix_refl s
        · exact (List.suffix_cons _ _).trans (ihB _ _ _)
    · cases deps with
      | nil => exact List.suffix_refl s
      | cons d rest =>
        simp only [mark_deps]
        split
        · exact ihA s d
        · exact (ihA s d).trans (ihB _ _ _)
        · split
          · exact (ihA s d).trans (ihC _ _)
          · exact ((ihA s d).trans (ihC _ _)).trans (ihB _ _ _)
          · exact (ihA s d).trans (ihC _ _)
    · simp only [mark_wanted_by_provided]
      split
      · exact List.suffix_refl s
      · exact ihD _ _
    · cases l with
      | nil => exact List.suffix_refl s
      | cons p rest =>
        simp only [mark_providers]
        split
        · exact ihA _ _
        · exact (ihA _ _).trans (ihD _ _)

theorem mark_wanted_by_name_suffix (g : Packages) (fuel : Nat) (s : WantedState)
    (n : String) : s <:+ (mark_wanted_by_name g fuel s n).2 :=
  (mono_all g fuel).1 s n

theorem mark_deps_suffix (g : Packages) (fuel : Nat) (s : WantedState)
    (p : Package) (deps : List String) : s <:+ (mark_deps g fuel s p deps).2 :=
  (mono_all g fuel).2.1 s p deps

theorem mark_wanted_by_provided_suffix (g : Packages) (fuel : Nat) (s : WantedState)
    (v : String) : s <:+ (mark_wanted_by_provided g fuel s v).2 :=
  (mono_all g fuel).2.2.1 s v

theorem mark_providers_suffix (g : Packages) (fuel : Nat) (s : WantedState)
    (l : List Package) : s <:+ (mark_providers g fuel s l).2 :=
  (mono_all g fuel).2.2.2 s l

/-! ### Branch analysis of `mark_wanted_by_name` / `__mark_wanted_by_provided` -/

/-- Unknown root name: the call returns false immediately and leaves the
state untouched (source lines 129–130, no alias fallback at the root). -/
theorem mwbn_not_found {g : Packages} {fuel : Nat} {s : WantedState} {n : String}
    (h : findPkg g.by_name n = none) (hf : 0 < fuel) :
    mark_wanted_by_name g fuel s n = (.ok false, s) := by
  cases fuel with
  | zero => omega
  | succ fuel => simp [mark_wanted_by_name, h]

/-- A false return happens only for a name unknown to `by_name`, and then
the state is unchanged. -/
theorem mwbn_false {g : Packages} {fuel : Nat} {s : WantedState} {n : String}
    (h : (mark_wanted_by_name g fuel s n).1 = .ok false) :
    findPkg g.by_name n = none ∧ (mark_wanted_by_name g fuel s n).2 = s := by
  cases fuel with
  | zero => simp [mark_wanted_by_name] at h
  | succ fuel =>
    cases hf : findPkg g.by_name n with
    | none => exact ⟨rfl, by simp [mark_wanted_by_name, hf]⟩
    | some package =>
      exfalso
      simp only [mark_wanted_by_name, hf] at h
      by_cases hs : n ∈ s
      · simp [hs] at h
      · simp only [hs, if_false] at h
        cases hd : (mark_deps g fuel (n :: s) package package.depends).1 <;>
          rw [hd] at h <;> simp [Except.map] at h

/-- A true return means the name is a `by_name` key. -/
theorem mwbn_true {g : Packages} {fuel : Nat} {s : WantedState} {n : String}
    (h : (mark_wanted_by_name g fuel s n).1 = .ok true) :
    findPkg g.by_name n ≠ none := by
  cases fuel with
  | zero => simp [mark_wanted_by_name] at h
  | succ fuel =>
    cases hf : findPkg g.by_name n with
    | none => simp [mark_wanted_by_name, hf] at h
    | some package =>
      intro hc
      exact Option.some_ne_none _ hc

/-- Any non-raising call on a known name leaves that name marked wanted. -/
theorem mwbn_marks {g : Packages} {fuel : Nat} {s : WantedState} {n : String}
    {b : Bool} {package : Package} (hp : findPkg g.by_name n = some package)
    (h : (mark_wanted_by_name g fuel s n).1 = .ok b) :
    n ∈ (mark_wanted_by_name g fuel s n).2 := by
  cases fuel with
  | zero => simp [mark_wanted_by_name] at h
  | succ fuel =>
    simp only [mark_wanted_by_name, hp]
    by_cases hs : n ∈ s
    · simp [hs]
    · simp only [hs, if_false]
      exact (mark_deps_suffix g fuel (n :: s) package package.depends).subset
        (List.mem_cons_self n s)

/-- Unknown alias name: `__mark_wanted_by_provided` returns false and leaves
the state untouched (source lines 144–145). -/
theorem mwbp_not_found {g : Packages} {fuel : Nat} {s : WantedState} {v : String}
    (h : findProv g.by_provides v = none) (hf : 0 < fuel) :
    mark_wanted_by_provided g fuel s v = (.ok false, s) := by
  cases fuel with
  | zero => omega
  | succ fuel => simp [mark_wanted_by_provided, h]

/-- A false return of `__mark_wanted_by_provided` happens only for a name
that is not a `by_provides` key, and then the state is unchanged. -/
theorem mwbp_false {g : Packages} {fuel : Nat} {s : WantedState} {v : String}
    (h : (mark_wanted_by_provided g fuel s v).1 = .ok false) :
    findProv g.by_provides v = none ∧ (mark_wanted_by_provided g fuel s v).2 = s := by
  cases fuel with
  | zero => simp [mark_wanted_by_provided] at h
  | succ fuel =>
    cases hf : findProv g.by_provides v with
    | none => exact ⟨rfl, by simp [mark_wanted_by_provided, hf]⟩
    | some packages =>
      exfalso
      simp only [mark_wanted_by_provided, hf] at h
      cases hd : (mark_providers g fuel s packages).1 <;>
        rw [hd] at h <;> simp [Except.map] at h

/-- A true return of `__mark_wanted_by_provided` means the name is a
`by_provides` key. -/
theorem mwbp_true {g : Packages} {fuel : Nat} {s : WantedState} {v : String}
    (h : (mark_wanted_by_provided g fuel s v).1 = .ok true) :
    findProv g.by_provides v ≠ none := by
  cases fuel with
  | zero => simp [mark_wanted_by_provided] at h
  | succ fuel =>
    cases hf : findProv g.by_provides v with
    | none => simp [mark_wanted_by_provided, hf] at h
    | some packages =>
      intro hc
      exact Option.some_ne_none _ hc

/-! ### Fuel adequacy: `runFuel` is enough fuel for any call -/

theorem findProv_mem {l : List (String × List Package)} {n : String} {pl : List Package}
    (h : findProv l n = some pl) : (n, pl) ∈ l := by
  induction l with
  | nil => simp [findProv] at h
  | cons e rest ih =>
    obtain ⟨k, q⟩ := e
    by_cases hk : k = n
    · subst hk
      simp [findProv] at h
      subst h
      exact List.mem_cons_self _ _
    · simp only [findProv, if_neg hk] at h
      exact List.mem_cons_of_mem _ (ih h)

/-- The per-graph fuel coefficient. -/
def coeff (g : Packages) : Nat :=
  maxDepsLen g + maxProvLen g + 3

/-- Fuel sufficient for a `mark_wanted_by_name` call in state `s`. -/
def need (g : Packages) (s : WantedState) : Nat :=
  coeff g * (unwantedCount g.by_name s + 1)

theorem coeff_le_need (g : Packages) (s : WantedState) : coeff g ≤ need g s := by
  calc coeff g = coeff g * 1 := (mul_one _).symm
  _ ≤ coeff g * (unwantedCount g.by_name s + 1) :=
      Nat.mul_le_mul (Nat.le_refl _) (by omega)

theorem need_mono (g : Packages) {s s2 : WantedState} (h : s ⊆ s2) :
    need g s2 ≤ need g s :=
  Nat.mul_le_mul (Nat.le_refl _)
    (by have := unwantedCount_subset h g.by_name; omega)

theorem need_mark (g : Packages) {n : String} {p : Package} {s : WantedState}
    (hmem : (n, p) ∈ g.by_name) (hns : n ∉ s) :
    need g (n :: s) + coeff g ≤ need g s := by
  have h1 := unwantedCount_cons_lt hmem hns
  unfold need
  calc coeff g * (unwantedCount g.by_name (n :: s) + 1) + coeff g
      ≤ coeff g * unwantedCount g.by_name s + coeff g :=
        Nat.add_le_add_right (Nat.mul_le_mul (Nat.le_refl _) (by omega)) _
  _ = coeff g * (unwantedCount g.by_name s + 1) := by ring

theorem map_ne_fuel {x : Except PkgError Unit} (h : x ≠ .error .outOfFuel) :
    (x.map (fun _ => true) : Except PkgError Bool) ≠ .error .outOfFuel := by
  cases x with
  | error e => simpa [Except.map] using h
  | ok u => simp [Except.map]

theorem fuel_all (g : Packages) : ∀ fuel : Nat,
    (∀ s n, need g s ≤ fuel →
      (mark_wanted_by_name g fuel s n).1 ≠ .error .outOfFuel) ∧
    (∀ s p deps, deps.length ≤ maxDepsLen g →
      need g s + deps.length + maxProvLen g + 2 ≤ fuel →
      (mark_deps g fuel s p deps).1 ≠ .error .outOfFuel) ∧
    (∀ s v, need g s + maxProvLen g + 1 ≤ fuel →
      (mark_wanted_by_provided g fuel s v).1 ≠ .error .outOfFuel) ∧
    (∀ s l, l.length ≤ maxProvLen g → need g s + l.length ≤ fuel →
      (mark_providers g fuel s l).1 ≠ .error .outOfFuel) := by
  intro fuel
  induction fuel with
  | zero =>
    refine ⟨fun s n h => ?_, fun s p deps hd h => ?_, fun s v h => ?_,
        fun s l hl h => ?_⟩ <;>
    · have h1 := coeff_le_need g s
      have h2 : coeff g = maxDepsLen g + maxProvLen g + 3 := rfl
      omega
  | succ fuel ih =>
    obtain ⟨ihA, ihB, ihC, ihD⟩ := ih
    have hco : coeff g = maxDepsLen g + maxProvLen g + 3 := rfl
    refine ⟨fun s n h => ?_, fun s p deps hd h => ?_, fun s v h => ?_,
        fun s l hl h => ?_⟩
    · -- mark_wanted_by_name
      cases hp : findPkg g.by_name n with
      | none => rw [mwbn_not_found hp (Nat.succ_pos _)]; simp
      | some package =>
        by_cases hs : n ∈ s
        · simp [mark_wanted_by_name, hp, hs]
        · simp only [mark_wanted_by_name, hp, hs, if_false]
          have hmem : (n, package) ∈ g.by_name := findPkg_mem hp
          have hdep : package.depends.length ≤ maxDepsLen g := depends_le_maxDepsLen hmem
          have hneed := need_mark g hmem hs
          exact map_ne_fuel (ihB (n :: s) package package.depends hdep (by omega))
    · -- mark_deps
      cases deps with
      | nil => simp [mark_deps]
      | cons d rest =>
        simp only [List.length_cons] at h hd
        have hA := ihA s d (by omega)
        simp only [mark_deps]
        cases hr : (mark_wanted_by_name g fuel s d).1 with
        | error e => rw [hr] at hA; simpa [hr] using hA
        | ok b =>
          have hsub := (mark_wanted_by_name_suffix g fuel s d).subset
          have hmono : need g (mark_wanted_by_name g fuel s d).2 ≤ need g s :=
            need_mono g hsub
          cases b with
          | true =>
            have hB := ihB (mark_wanted_by_name g fuel s d).2 p rest (by omega) (by omega)
            simpa [hr] using hB
          | false =>
            have hC := ihC (mark_wanted_by_name g fuel s d).2 d (by omega)
            cases hr2 : (mark_wanted_by_provided g fuel
                (mark_wanted_by_name g fuel s d).2 d).1 with
            | error e2 => rw [hr2] at hC; simpa [hr, hr2] using hC
            | ok b2 =>
              cases b2 with
              | true =>
                have hsub2 := (mark_wanted_by_provided_suffix g fuel
                  (mark_wanted_by_name g fuel s d).2 d).subset
                have hmono2 := need_mono g hsub2
                have hB := ihB (mark_wanted_by_provided g fuel
                  (mark_wanted_by_name g fuel s d).2 d).2 p rest (by omega) (by omega)
                simpa [hr, hr2] using hB
              | false => simp [hr, hr2]
    · -- mark_wanted_by_provided
      cases hp : findProv g.by_provides v with
      | none => rw [mwbp_not_found hp (Nat.succ_pos _)]; simp
      | some packages =>
        have hl : packages.length ≤ maxProvLen g := providers_le_maxProvLen (findProv_mem hp)
        simp only [mark_wanted_by_provided, hp]
        exact map_ne_fuel (ihD s packages hl (by omega))
    · -- mark_providers
      cases l with
      | nil => simp [mark_providers]
      | cons p rest =>
        simp only [List.length_cons] at h hl
        have hA := ihA s p.name (by omega)
        simp only [mark_providers]
        cases hr : (mark_wanted_by_name g fuel s p.name).1 with
        | error e => rw [hr] at hA; simpa [hr] using hA
        | ok b =>
          have hsub := (mark_wanted_by_name_suffix g fuel s p.name).subset
          have hmono := need_mono g hsub
          have hD := ihD (mark_wanted_by_name g fuel s p.name).2 rest (by omega) (by omega)
          simpa [hr] using hD

/-- The bound `runFuel` is sufficient for any call: `run` never reports fuel
exhaustion, i.e. the source recursion terminates on every finite graph. -/
theorem run_no_fuel_error (g : Packages) (s : WantedState) (n : String) :
    (run g s n).1 ≠ .error .outOfFuel := by
  have h1 := unwantedCount_le_length g.by_name s
  have h2 : need g s ≤ runFuel g := by
    unfold need runFuel
    exact Nat.mul_le_mul (Nat.le_refl _) (by omega)
  exact (fuel_all g (runFuel g)).1 s n h2

/-! ### Behaviour of the dependency loop -/

/-- When the dependency loop finishes without raising, every dependency in
the list was resolvable by name or by provided alias. -/
theorem mark_deps_resolvable {g : Packages} : ∀ {deps : List String} {fuel : Nat}
    {s : WantedState} {p : Package},
    (mark_deps g fuel s p deps).1 = .ok () → ∀ d ∈ deps,
    findPkg g.by_name d ≠ none ∨ findProv g.by_provides d ≠ none := by
  intro deps
  induction deps with
  | nil => intro fuel s p h d hd; simp at hd
  | cons d0 rest ih =>
    intro fuel s p h d hd
    cases fuel with
    | zero => simp [mark_deps] at h
    | succ fuel =>
      simp only [mark_deps] at h
      cases hr : (mark_wanted_by_name g fuel s d0).1 with
      | error e => rw [hr] at h; simp at h
      | ok b =>
        cases b with
        | true =>
          rw [hr] at h
          simp only at h
          rcases List.mem_cons.mp hd with h1 | h1
          · subst h1
            exact Or.inl (mwbn_true hr)
          · exact ih h d h1
        | false =>
          rw [hr] at h
          simp only at h
          cases hr2 : (mark_wanted_by_provided g fuel
              (mark_wanted_by_name g fuel s d0).2 d0).1 with
          | error e => rw [hr2] at h; simp at h
          | ok b2 =>
            cases b2 with
            | true =>
              rw [hr2] at h
              simp only at h
              rcases List.mem_cons.mp hd with h1 | h1
              · subst h1
                exact Or.inr (mwbp_true hr2)
              · exact ih h d h1
            | false => rw [hr2] at h; simp at h

/-- When the provider loop finishes without raising, every provider that is
a `by_name` key ends up marked wanted. -/
theorem mark_providers_marks {g : Packages} {X q : Package}
    (hq : findPkg g.by_name X.name = some q) : ∀ {l : List Package} {fuel : Nat}
    {s : WantedState}, X ∈ l → (mark_providers g fuel s l).1 = .ok () →
    X.name ∈ (mark_providers g fuel s l).2 := by
  intro l
  induction l with
  | nil => intro fuel s hX h; simp at hX
  | cons p rest ih =>
    intro fuel s hX h
    cases fuel with
    | zero => simp [mark_providers] at h
    | succ fuel =>
      simp only [mark_providers] at h ⊢
      cases hr : (mark_wanted_by_name g fuel s p.name).1 with
      | error e => rw [hr] at h; simp at h
      | ok b =>
        rw [hr] at h
        simp only at h ⊢
        rcases List.mem_cons.mp hX with h1 | h1
        · subst h1
          have hm : X.name ∈ (mark_wanted_by_name g fuel s X.name).2 :=
            mwbn_marks hq hr
          exact (mark_providers_suffix g fuel _ rest).subset hm
        · exact ih h1 h

/-- A true return of `__mark_wanted_by_provided` marks every provider (that
is a `by_name` key) of the requested alias. -/
theorem mwbp_true_marks {g : Packages} {fuel : Nat} {s : WantedState} {v : String}
    {l : List Package} {X q : Package} (hprov : findProv g.by_provides v = some l)
    (hX : X ∈ l) (hq : findPkg g.by_name X.name = some q)
    (h : (mark_wanted_by_provided g fuel s v).1 = .ok true) :
    X.name ∈ (mark_wanted_by_provided g fuel s v).2 := by
  cases fuel with
  | zero => simp [mark_wanted_by_provided] at h
  | succ fuel =>
    simp only [mark_wanted_by_provided, hprov] at h ⊢
    cases hr : (mark_providers g fuel s l).1 with
    | error e => rw [hr] at h; simp [Except.map] at h
    | ok u =>
      cases u
      exact mark_providers_marks hq hX hr

/-- A true return of `mark_wanted_by_name` on a fresh name means the
dependency loop finished, so every dependency was resolvable. -/
theorem mwbn_true_resolvable {g : Packages} {fuel : Nat} {s : WantedState}
    {n : String} {package : Package} (hp : findPkg g.by_name n = some package)
    (hs : n ∉ s) (h : (mark_wanted_by_name g fuel s n).1 = .ok true) :
    ∀ d ∈ package.depends,
    findPkg g.by_name d ≠ none ∨ findProv g.by_provides d ≠ none := by
  cases fuel with
  | zero => simp [mark_wanted_by_name] at h
  | succ fuel =>
    simp only [mark_wanted_by_name, hp, hs, if_false] at h
    cases hr : (mark_deps g fuel (n :: s) package package.depends).1 with
    | error e => rw [hr] at h; simp [Except.map] at h
    | ok u =>
      cases u
      exact mark_deps_resolvable hr

/-- When the first dependency of the list resolves neither by name nor by
alias, the loop raises at once, naming that dependency and the requiring
package (source line 139). -/
theorem mark_deps_head_unresolvable {g : Packages} {fuel : Nat} {s : WantedState}
    {p : Package} {D : String} {rest : List String}
    (hD1 : findPkg g.by_name D = none) (hD2 : findProv g.by_provides D = none)
    (hf : 2 ≤ fuel) :
    mark_deps g fuel s p (D :: rest) = (.error (.unresolvedDependency D p.name), s) := by
  cases fuel with
  | zero => omega
  | succ fuel =>
    have h1 : 0 < fuel := by omega
    simp [mark_deps, mwbn_not_found hD1 h1, mwbp_not_found hD2 h1]

/-- When a dependency `V` of the list resolves only through providers, a
pass of the loop that completes without raising marks every provider of `V`
that is a `by_name` key. -/
theorem mark_deps_marks_provider {g : Packages} {V : String} {l : List Package}
    {X q : Package} (hV1 : findPkg g.by_name V = none)
    (hV2 : findProv g.by_provides V = some l) (hX : X ∈ l)
    (hq : findPkg g.by_name X.name = some q) : ∀ {deps : List String} {fuel : Nat}
    {s : WantedState} {p : Package}, V ∈ deps →
    (mark_deps g fuel s p deps).1 = .ok () →
    X.name ∈ (mark_deps g fuel s p deps).2 := by
  intro deps
  induction deps with
  | nil => intro fuel s p hV h; simp at hV
  | cons d0 rest ih =>
    intro fuel s p hV h
    cases fuel with
    | zero => simp [mark_deps] at h
    | succ fuel =>
      simp only [mark_deps] at h ⊢
      cases hr : (mark_wanted_by_name g fuel s d0).1 with
      | error e => rw [hr] at h; simp at h
      | ok b =>
        simp only [hr] at h ⊢
        cases b with
        | true =>
          rcases List.mem_cons.mp hV with h1 | h1
          · subst h1
            exact absurd hV1 (mwbn_true hr)
          · exact ih h1 h
        | false =>
          cases hr2 : (mark_wanted_by_provided g fuel
              (mark_wanted_by_name g fuel s d0).2 d0).1 with
          | error e => rw [hr2] at h; simp at h
          | ok b2 =>
            rw [hr2] at h
            simp only at h ⊢
            cases b2 with
            | true =>
              rcases List.mem_cons.mp hV with h1 | h1
              · subst h1
                have hm : X.name ∈ (mark_wanted_by_provided g fuel
                    (mark_wanted_by_name g fuel s V).2 V).2 :=
                  mwbp_true_marks hV2 hX hq hr2
                exact (mark_deps_suffix g fuel _ p rest).subset hm
              · exact ih h1 h
            | false => simp at h

/-! ### The stripping rule, and `runFuel` arithmetic helpers -/

/-- The regex deletion `stripChars` equals the independent index-based
formulation: truncate at the first comparator that has a character after
it. -/
theorem stripChars_eq_amended (l : List Char) :
    stripChars l =
      (if l.dropLast.any (fun c => isComparator c) then
        l.take (l.dropLast.findIdx (fun c => isComparator c))
      else l) := by
  induction l with
  | nil => simp [stripChars]
  | cons c rest ih =>
    cases rest with
    | nil => simp [stripChars]
    | cons c2 rest2 =>
      simp only [stripChars, List.dropLast_cons₂, List.any_cons, List.findIdx_cons]
      by_cases hc : isComparator c = true
      · simp [hc]
      · simp only [hc]
        simp only [Bool.false_or, cond_false]
        by_cases ha : (c2 :: rest2).dropLast.any (fun c => isComparator c) = true
        · rw [if_pos ha, List.take_succ_cons]
          rw [if_pos ha] at ih
          simp [ih]
        · rw [if_neg ha]
          rw [if_neg ha] at ih
          simp [ih]

/-- Function `strip_version` agrees with the amended rule on every item. -/
theorem strip_version_eq_amended (item : String) :
    strip_version item = amendedStrip item := by
  unfold strip_version amendedStrip
  rw [stripChars_eq_amended]
  split
  · rfl
  · rfl

theorem runFuel_ge3 (g : Packages) : 3 ≤ runFuel g := by
  unfold runFuel
  calc (3 : Nat) = 3 * 1 := rfl
  _ ≤ (maxDepsLen g + maxProvLen g + 3) * (g.by_name.length + 1) :=
      Nat.mul_le_mul (by omega) (by omega)

/-! ### Concrete graphs used by witnesses and counterexamples -/

/-- Package `A` of a two-package dependency cycle. -/
def pkgA : Package :=
  { name := "A", version := "1", desc := "a", depends := ["B"], provides := [] }

/-- Package `B` of a two-package dependency cycle. -/
def pkgB : Package :=
  { name := "B", version := "1", desc := "b", depends := ["A"], provides := [] }

/-- Graph with the cycle `A` → `B` → `A`. -/
def gCycle : Packages :=
  { by_name := [("A", pkgA), ("B", pkgB)], by_provides := [] }

/-- A dependency-free provider of the virtual name `V`. -/
def pkgX : Package :=
  { name := "x", version := "1", desc := "x", depends := [], provides := ["V"] }

/-- A package depending only on the virtual name `V`. -/
def pkgY : Package :=
  { name := "Y", version := "1", desc := "y", depends := ["V"], provides := [] }

/-- Graph where `Y` depends on `V`, which only `x` provides. -/
def gAlias : Packages :=
  { by_name := [("Y", pkgY), ("x", pkgX)], by_provides := [("V", [pkgX])] }

/-- A provider of `V` with an unresolvable dependency of its own. -/
def pkgXBad : Package :=
  { name := "x", version := "1", desc := "x", depends := ["missing"], provides := ["V"] }

/-- Like `gAlias`, but the provider of `V` cannot be resolved. -/
def gAliasBad : Packages :=
  { by_name := [("Y", pkgY), ("x", pkgXBad)], by_provides := [("V", [pkgXBad])] }

/-- A package with two unresolvable dependencies. -/
def pkgZ : Package :=
  { name := "Z", version := "1", desc := "z", depends := ["m1", "m2"], provides := [] }

/-- Graph containing only `Z`. -/
def gZ : Packages :=
  { by_name := [("Z", pkgZ)], by_provides := [] }

/-- A package whose single dependency is unresolvable. -/
def pkgW : Package :=
  { name := "Wp", version := "1", desc := "w",
    depends := ["missing-thing"], provides := [] }

/-- Graph containing only `pkgW`. -/
def gW : Packages :=
  { by_name := [("Wp", pkgW)], by_provides := [] }

/-- A second package also named `A`, providing `V`. -/
def pkgA2 : Package :=
  { name := "A", version := "2", desc := "a2", depends := [], provides := ["V"] }

/-! ### Claim C1 -/

/-- Claim C1 as stated is false: `mark_wanted_by_name` never attempts alias
resolution for the root name.  In `gAlias` the name `V` is not a `by_name`
key but is a `by_provides` key with the non-empty provider list `[pkgX]`,
yet the call returns false (with nothing marked) instead of the claimed
true. -/
theorem c1_root_alias_counterexample :
    findPkg gAlias.by_name "V" = none ∧
    findProv gAlias.by_provides "V" = some [pkgX] ∧
    [pkgX] ≠ ([] : List Package) ∧
    run gAlias [] "V" = (.ok false, []) := by decide

/-- Claim C1, amended: for every graph and root name `N` that is not a key
in `by_name`, `mark_wanted_by_name(N)` returns false and marks nothing,
even when `N` is a key in `by_provides` with providers; alias resolution is
attempted only for dependency names encountered inside the closure, never
for the root. -/
theorem c1_root_unknown_returns_false (g : Packages) (s : WantedState) (n : String)
    (h : findPkg g.by_name n = none) : run g s n = (.ok false, s) := by
  unfold run
  exact mwbn_not_found h (by have := runFuel_ge3 g; omega)

/-- Witness for C1's amended theorem at a concrete graph. -/
theorem c1_witness : run gAlias [] "V" = (.ok false, []) :=
  c1_root_unknown_returns_false gAlias [] "V" (by decide)

/-! ### Claim C2 -/

/-- Claim C2 as stated is false in two ways.  In `gZ`, the package `Z` has
the two unresolvable dependencies `m1` and `m2`; taking `D := "m2"` the
claim's premises hold, but the raised error names `m1` (the first failing
dependency), not `m2`.  And when `Z` is already marked wanted the call
returns true and raises nothing at all. -/
theorem c2_error_names_first_missing_counterexample :
    ("m2" ∈ pkgZ.depends ∧ findPkg gZ.by_name "m2" = none ∧
      findProv gZ.by_provides "m2" = none) ∧
    run gZ [] "Z" = (.error (.unresolvedDependency "m1" "Z"), ["Z"]) ∧
    PkgError.unresolvedDependency "m1" "Z" ≠ PkgError.unresolvedDependency "m2" "Z" ∧
    run gZ ["Z"] "Z" = (.ok true, ["Z"]) := by decide

/-- Claim C2, amended: when `Z` is not already wanted and `D` is the first
entry of `Z`'s dependency list, with `D` neither a `by_name` key nor a
`by_provides` key, `mark_wanted_by_name(Z.name)` raises an
`UnresolvedDependency` error naming `D` and `Z`; the error propagates (only
the marking of `Z` itself has happened). -/
theorem c2_first_dep_unresolvable_raises {g : Packages} {s : WantedState}
    {zn D : String} {Z : Package} {rest : List String}
    (hZ : findPkg g.by_name zn = some Z) (hdeps : Z.depends = D :: rest)
    (hD1 : findPkg g.by_name D = none) (hD2 : findProv g.by_provides D = none)
    (hzs : zn ∉ s) :
    run g s zn = (.error (.unresolvedDependency D Z.name), zn :: s) := by
  have h3 := runFuel_ge3 g
  obtain ⟨f, hf⟩ : ∃ f, runFuel g = f + 1 := ⟨runFuel g - 1, by omega⟩
  unfold run
  rw [hf]
  simp only [mark_wanted_by_name, hZ, hzs, if_false]
  rw [hdeps, mark_deps_head_unresolvable hD1 hD2 (by omega)]
  simp [Except.map]

/-- Witness for C2's amended theorem at a concrete graph. -/
theorem c2_witness :
    run gW [] "Wp" = (.error (.unresolvedDependency "missing-thing" "Wp"), ["Wp"]) :=
  @c2_first_dep_unresolvable_raises gW [] "Wp" "missing-thing" pkgW []
    (by decide) (by decide) (by decide) (by decide) (by decide)

/-! ### Claim C3 -/

/-- Claim C3 as stated is false in two ways.  In `gAliasBad` the premises
hold (`Y` depends on `V`, nothing is named `V`, `x` lists `V` in its
provides), but marking `Y` raises `UnresolvedDependency` for the provider's
own dependency instead of returning true.  And in `gAlias`, when `Y` is
already wanted the call returns true immediately without marking the
provider `x`. -/
theorem c3_provider_closure_error_counterexample :
    ("V" ∈ pkgY.depends ∧ findPkg gAliasBad.by_name "V" = none ∧
      "V" ∈ pkgXBad.provides ∧ findPkg gAliasBad.by_name "Y" = some pkgY) ∧
    run gAliasBad [] "Y" =
      (.error (.unresolvedDependency "missing" "x"), ["x", "Y"]) ∧
    (run gAlias ["Y"] "Y" = (.ok true, ["Y"]) ∧
      "x" ∉ (run gAlias ["Y"] "Y").2) := by decide

/-- Claim C3, amended: in a well-formed graph where `Y` (not yet wanted)
depends on `V`, no package is named `V`, and some held package `X` lists
`V` in its provides, any completed (non-raising) call
`mark_wanted_by_name(Y.name)` returns true and leaves both `Y.name` and
`X.name` marked wanted. -/
theorem c3_alias_fallback_marks_provider {g : Packages} {s : WantedState}
    {yn V : String} {Y X : Package} {b : Bool} {W : WantedState}
    (hwf : WellFormed g) (hY : findPkg g.by_name yn = some Y) (hys : yn ∉ s)
    (hV : V ∈ Y.depends) (hVn : findPkg g.by_name V = none)
    (hXg : ∃ e ∈ g.by_name, e.2 = X) (hXV : V ∈ X.provides)
    (hrun : run g s yn = (.ok b, W)) :
    b = true ∧ yn ∈ W ∧ X.name ∈ W := by
  obtain ⟨⟨xk, X2⟩, hxe, hx2⟩ := hXg
  simp only at hx2
  subst hx2
  have hxk : xk = X2.name := hwf.1 _ hxe
  subst hxk
  have hkey : findPkg g.by_name X2.name ≠ none := findPkg_isSome_of_mem hxe
  obtain ⟨⟨vk, pl⟩, hpe, hpev, hpex⟩ := hwf.2.1 _ hxe V hXV
  simp only at hpev hpex
  subst hpev
  have hfind : findProv g.by_provides vk = some pl := findProv_eq_of_mem hwf.2.2 hpe
  have h3 := runFuel_ge3 g
  obtain ⟨f, hf⟩ : ∃ f, runFuel g = f + 1 := ⟨runFuel g - 1, by omega⟩
  unfold run at hrun
  rw [hf] at hrun
  simp only [mark_wanted_by_name, hY, hys, if_false] at hrun
  have hW : (mark_deps g f (yn :: s) Y Y.depends).2 = W := congrArg Prod.snd hrun
  have hb : ((mark_deps g f (yn :: s) Y Y.depends).1.map (fun _ => true) :
      Except PkgError Bool) = .ok b := congrArg Prod.fst hrun
  cases hq : findPkg g.by_name X2.name with
  | none => exact absurd hq hkey
  | some q =>
    cases hd : (mark_deps g f (yn :: s) Y Y.depends).1 with
    | error e =>
      exfalso
      rw [hd] at hb
      simp [Except.map] at hb
    | ok u =>
      cases u
      cases b with
      | false =>
        exfalso
        rw [hd] at hb
        simp [Except.map] at hb
      | true =>
        refine ⟨rfl, ?_, ?_⟩
        · rw [← hW]
          exact (mark_deps_suffix g f (yn :: s) Y Y.depends).subset
            (List.mem_cons_self _ _)
        · rw [← hW]
          exact mark_deps_marks_provider hVn hfind hpex hq hV hd

/-- Witness for C3's amended theorem at a concrete graph. -/
theorem c3_witness :
    true = true ∧ "Y" ∈ (["x", "Y"] : WantedState) ∧
      pkgX.name ∈ (["x", "Y"] : WantedState) :=
  @c3_alias_fallback_marks_provider gAlias [] "Y" "V" pkgY pkgX true ["x", "Y"]
    (by decide) (by decide) (by decide) (by decide) (by decide) (by decide)
    (by decide) (by decide)

/-! ### Claim C4 -/

/-- Claim C4: every `run` call terminates without fuel exhaustion — the
fuel bound `runFuel` of the embedding is never hit, so the source recursion
is finite on every finite graph — and on the concrete cycle `A` ↔ `B`,
marking `A` terminates, marks both packages wanted, and raises no error
(the already-wanted check stops the recursion). -/
theorem c4_terminates_on_cycles :
    (∀ (g : Packages) (s : WantedState) (n : String),
      (run g s n).1 ≠ .error .outOfFuel) ∧
    run gCycle [] "A" = (.ok true, ["B", "A"]) ∧
    wantedIn (run gCycle [] "A").2 pkgA ∧ wantedIn (run gCycle [] "A").2 pkgB :=
  ⟨run_no_fuel_error, by decide, by decide, by decide⟩

/-- Witness for C4 at the concrete cycle graph. -/
theorem c4_witness : (run gCycle [] "A").1 ≠ .error .outOfFuel :=
  c4_terminates_on_cycles.1 gCycle [] "A"

/-! ### Claim C5 -/

/-- Claim C5: `mark_wanted_by_name` is idempotent.  If a call on `N`
completes with boolean `b` and wanted-state `W`, an immediately repeated
call on `N` (from state `W`) returns the same boolean and exactly the same
wanted-state. -/
theorem c5_mark_idempotent {g : Packages} {s : WantedState} {n : String}
    {b : Bool} {W : WantedState} (h : run g s n = (.ok b, W)) :
    run g W n = (.ok b, W) := by
  have h3 := runFuel_ge3 g
  obtain ⟨f, hf⟩ : ∃ f, runFuel g = f + 1 := ⟨runFuel g - 1, by omega⟩
  unfold run at h ⊢
  rw [hf] at h ⊢
  cases hp : findPkg g.by_name n with
  | none =>
    rw [mwbn_not_found hp (Nat.succ_pos f)] at h
    have hb : b = false := by
      have := congrArg Prod.fst h
      simpa using this.symm
    have hw : W = s := by
      have := congrArg Prod.snd h
      simpa using this.symm
    subst hb
    subst hw
    exact mwbn_not_found hp (Nat.succ_pos f)
  | some package =>
    have h1 : (mark_wanted_by_name g (f + 1) s n).1 = .ok b := by rw [h]
    cases b with
    | false =>
      have h2 := (mwbn_false h1).1
      rw [hp] at h2
      exact absurd h2 (by simp)
    | true =>
      have hm : n ∈ (mark_wanted_by_name g (f + 1) s n).2 := mwbn_marks hp h1
      have hW : (mark_wanted_by_name g (f + 1) s n).2 = W := congrArg Prod.snd h
      rw [hW] at hm
      simp [mark_wanted_by_name, hp, hm]

/-- Witness for C5 at the concrete cycle graph. -/
theorem c5_witness : run gCycle ["B", "A"] "A" = (.ok true, ["B", "A"]) :=
  @c5_mark_idempotent gCycle [] "A" true ["B", "A"] (by decide)

/-! ### Claim C6 -/

/-- Claim C6: adding a package whose name is already held raises
`DuplicateName` and leaves the graph unchanged — the caller still holds the
old graph, the first package is still the one retrieved for the name, and
`by_provides` is untouched. -/
theorem c6_duplicate_add_rejected {g : Packages} {p1 p2 : Package}
    (h1 : findPkg g.by_name p2.name = some p1) :
    g.add p2 = .error (.duplicateName p2.name) ∧
    g.addOrKeep p2 = g ∧
    findPkg (g.addOrKeep p2).by_name p2.name = some p1 ∧
    (g.addOrKeep p2).by_provides = g.by_provides := by
  have ha : g.add p2 = .error (.duplicateName p2.name) := by
    unfold Packages.add
    rw [h1]
  have hk : g.addOrKeep p2 = g := by
    unfold Packages.addOrKeep
    rw [ha]
  exact ⟨ha, hk, by rw [hk]; exact h1, by rw [hk]⟩

/-- Witness for C6: adding a second package named `A` to `gCycle`. -/
theorem c6_witness :
    gCycle.add pkgA2 = .error (.duplicateName pkgA2.name) ∧
    gCycle.addOrKeep pkgA2 = gCycle ∧
    findPkg (gCycle.addOrKeep pkgA2).by_name pkgA2.name = some pkgA ∧
    (gCycle.addOrKeep pkgA2).by_provides = gCycle.by_provides :=
  c6_duplicate_add_rejected (by decide)

/-! ### Claim C7 -/

/-- A record whose dependency entry ends in a bare comparator. -/
def recTrailing : PackageRecord :=
  { name := "p", version := "1", desc := "d",
    depends_raw := ["foo>"], provides_raw := [] }

/-- A record with ordinary version-constrained entries. -/
def recFoo : PackageRecord :=
  { name := "p", version := "1", desc := "d",
    depends_raw := ["foo>=1.2.3"], provides_raw := ["bar<2"] }

/-- Claim C7 as stated is false at a trailing comparator: the regex
`[<>=]{1,2}.+$` needs at least one character after the comparator, so for
the entry `"foo>"` construction stores `"foo>"` unchanged, while the
claimed truncate-at-first-comparator-through-end rule yields `"foo"`. -/
theorem c7_trailing_comparator_counterexample :
    (Package.ofRecord recTrailing).depends = ["foo>"] ∧
    claimStrip "foo>" = "foo" ∧ ("foo>" : String) ≠ "foo" := by decide

/-- Claim C7, amended: construction strips every entry of `depends_raw` and
`provides_raw` by truncating at the first comparator character (`<`, `>`,
`=`) that is followed by at least one character; a comparator at the very
end of the string, with nothing after it, is kept.  In particular
`"foo>=1.2.3"` yields the same stored name as `"foo"`. -/
theorem c7_strip_rule (r : PackageRecord) :
    (Package.ofRecord r).depends = r.depends_raw.map amendedStrip ∧
    (Package.ofRecord r).provides = r.provides_raw.map amendedStrip ∧
    strip_version "foo>=1.2.3" = "foo" ∧
    strip_version "foo>=1.2.3" = strip_version "foo" := by
  have hfun : strip_version = amendedStrip := funext strip_version_eq_amended
  refine ⟨?_, ?_, by decide, by decide⟩
  · show strip_versions r.depends_raw = r.depends_raw.map amendedStrip
    unfold strip_versions
    rw [hfun]
  · show strip_versions r.provides_raw = r.provides_raw.map amendedStrip
    unfold strip_versions
    rw [hfun]

/-- Witness for C7's amended rule at a concrete record. -/
theorem c7_witness :
    (Package.ofRecord recFoo).depends = recFoo.depends_raw.map amendedStrip ∧
    (Package.ofRecord recFoo).provides = recFoo.provides_raw.map amendedStrip ∧
    strip_version "foo>=1.2.3" = "foo" ∧
    strip_version "foo>=1.2.3" = strip_version "foo" :=
  c7_strip_rule recFoo

/-! ### Claim C8 -/

/-- Claim C8: `get_unwanted` returns exactly the held packages whose wanted
flag is unset, as a sublist of the `by_name` values (so in insertion
order); with nothing yet marked it returns every held package, and a
freshly added package appears in it. -/
theorem c8_get_unwanted_spec :
    (∀ (g : Packages) (s : WantedState) (p : Package),
      p ∈ get_unwanted g s ↔ p ∈ g.by_name.map Prod.snd ∧ p.name ∉ s) ∧
    (∀ (g : Packages) (s : WantedState),
      (get_unwanted g s).Sublist (g.by_name.map Prod.snd)) ∧
    (∀ g : Packages, get_unwanted g [] = g.by_name.map Prod.snd) ∧
    (∀ (g g2 : Packages) (p : Package), g.add p = .ok g2 →
      p ∈ get_unwanted g2 []) := by
  refine ⟨?_, ?_, ?_, ?_⟩
  · intro g s p
    simp [get_unwanted, List.mem_filter]
  · intro g s
    exact List.filter_sublist _
  · intro g
    simp [get_unwanted]
  · intro g g2 p h
    unfold Packages.add at h
    cases hf : findPkg g.by_name p.name with
    | some q =>
      rw [hf] at h
      exact absurd h (by simp)
    | none =>
      rw [hf] at h
      injection h with h2
      subst h2
      simp [get_unwanted]

/-- The graph holding only `pkgA`. -/
def gA1 : Packages :=
  { by_name := [("A", pkgA)], by_provides := [] }

/-- Witness for C8: a fresh package added to the empty graph is unwanted. -/
theorem c8_witness : pkgA ∈ get_unwanted gA1 [] :=
  c8_get_unwanted_spec.2.2.2 Packages.empty gA1 pkgA (by decide)

/-! ### Claim C9 -/

/-- Claim C9: the wanted flag starts false and is one-way — no sequence of
graph operations (`add`, `mark_wanted_by_name`, `get_unwanted`,
`mark_wanted`) ever turns a wanted flag from true back to false. -/
theorem c9_wanted_one_way :
    (∀ package : Package, ¬ wantedIn [] package) ∧
    (∀ (st : Packages × WantedState) (ops : List Op) (package : Package),
      wantedIn st.2 package → wantedIn (runOps st ops).2 package) := by
  constructor
  · intro p h
    simp [wantedIn] at h
  · intro st ops
    induction ops generalizing st with
    | nil => intro p h; exact h
    | cons op rest ih =>
      intro p h
      have h1 : wantedIn (step st op).2 p := by
        obtain ⟨g, s⟩ := st
        cases op with
        | add q => exact h
        | markByName n =>
          exact (mark_wanted_by_name_suffix g (runFuel g) s n).subset h
        | getUnwanted => exact h
        | markWanted n => exact List.mem_cons_of_mem _ h
      exact ih (step st op) p h1

/-- Witness for C9: a flag set before an operation sequence survives it. -/
theorem c9_witness : wantedIn (runOps (gCycle, ["A"]) [Op.markByName "B"]).2 pkgA :=
  c9_wanted_one_way.2 (gCycle, ["A"]) [Op.markByName "B"] pkgA (by decide)

/-! ### Claim C10 -/

/-- Claim C10: a false return of `mark_wanted_by_name` is a pure not-found
query — the wanted-state is exactly what it was, so the set of unwanted
packages is unchanged. -/
theorem c10_false_return_frame {g : Packages} {s : WantedState} {n : String}
    {W : WantedState} (h : run g s n = (.ok false, W)) :
    W = s ∧ get_unwanted g W = get_unwanted g s := by
  unfold run at h
  have h1 : (mark_wanted_by_name g (runFuel g) s n).1 = .ok false := by rw [h]
  have h2 := (mwbn_false h1).2
  rw [h] at h2
  simp at h2
  exact ⟨h2, by rw [h2]⟩

/-- Witness for C10: asking for the unknown name `V` changes nothing. -/
theorem c10_witness : (["q"] : WantedState) = ["q"] ∧
    get_unwanted gAlias ["q"] = get_unwanted gAlias ["q"] :=
  @c10_false_return_frame gAlias ["q"] "V" ["q"] (by decide)

end Pkglint
